import Mathlib

/-!
Verification of the USDC transfer indexer (MrBettKp/Dc).

Shallow embedding of the two core components:
* `parse_token_transfers` (src/utils.rs) — the balance-diff reconciler.  The
  Rust code iterates a `HashSet<usize>` of account indices and a
  `HashMap<String, Vec<usize>>` of mint groups; iteration order of those hash
  containers is runtime-dependent, so the embedding takes the two enumeration
  orders (`ord` for the account-index set, `mintOrd` for the mint keys) as
  explicit parameters, together with validity predicates saying the lists
  enumerate exactly the container contents.
* `backfill_usdc_transfers` / `process_transaction` (src/main.rs) — the
  backfill controller, modelled over a synthetic paginated signature source
  (the sequential list of pages the RPC would serve) and a transaction-detail
  oracle `fetch`.  The outcome records a trace: how many pages were requested
  and which signatures had their detail fetched.

Machine integers: token amounts are `u64` parsed from strings and cast
`as i64`; the embedding uses `Nat`/`Int` with explicit two's-complement
conversions (`toI64`, `toU64`, `wrap64`, wrapping = release-mode semantics).
`Pubkey::from_str` / `Signature::from_str` (solana-sdk) are modelled as
base58 decoding to 32- resp. 64-byte arrays, `DateTime::from_timestamp`
(chrono) as a range check on seconds.
-/

set_option maxRecDepth 100000

namespace Dc

/-! ## Base58 decoding (models bs58 as used by solana-sdk FromStr) -/

/-- The bs58 Bitcoin alphabet. -/
def base58Alphabet : List Char :=
  "123456789ABCDEFGHJKLMNPQRSTUVWXYZabcdefghijkmnopqrstuvwxyz".toList

/-- Index of a character in a digit list, or `none`. -/
def findIdx58 (c : Char) : List Char → Nat → Option Nat
  | [], _ => none
  | d :: ds, i => if d = c then some i else findIdx58 c ds (i + 1)

/-- Value of one base58 digit. -/
def base58DigitVal (c : Char) : Option Nat :=
  findIdx58 c base58Alphabet 0

/-- Fold a base58 digit string into a natural number; `none` on a bad digit. -/
def base58ToNat : List Char → Nat → Option Nat
  | [], acc => some acc
  | c :: cs, acc =>
    match base58DigitVal c with
    | none => none
    | some v => base58ToNat cs (acc * 58 + v)

/-- Leading `'1'` digits of a base58 string encode leading zero bytes. -/
def countLeadingOnes : List Char → Nat
  | [] => 0
  | c :: cs => if c = '1' then countLeadingOnes cs + 1 else 0

/-- Big-endian bytes of `n`, least-significant first, fuel-bounded
(fuel = number of input digits suffices since 58 < 256). -/
def natToBytesRev : Nat → Nat → List Nat
  | 0, _ => []
  | fuel + 1, n => if n = 0 then [] else n % 256 :: natToBytesRev fuel (n / 256)

/-- bs58 decode: byte list of the string, or `none` on an invalid digit. -/
def base58Decode (s : String) : Option (List Nat) :=
  match base58ToNat s.toList 0 with
  | none => none
  | some n =>
    some (List.replicate (countLeadingOnes s.toList) 0 ++
          (natToBytesRev s.length n).reverse)

/-- Models solana-sdk `Pubkey::from_str`: length guard (MAX_BASE58_LEN = 44),
base58 decode, and the decoded bytes must be exactly 32. -/
def pubkeyFromStr (s : String) : Option (List Nat) :=
  if s.length > 44 then none
  else
    match base58Decode s with
    | none => none
    | some bs => if bs.length = 32 then some bs else none

/-- Models solana-sdk `Signature::from_str`: length guard
(MAX_BASE58_SIGNATURE_LEN = 88), base58 decode, exactly 64 bytes. -/
def signatureFromStr (s : String) : Option (List Nat) :=
  if s.length > 88 then none
  else
    match base58Decode s with
    | none => none
    | some bs => if bs.length = 64 then some bs else none

/-! ## Machine-integer conversions -/

/-- Rust `u64 as i64` (two's complement reinterpretation). -/
def toI64 (n : Nat) : Int :=
  if n < 2 ^ 63 then (n : Int) else (n : Int) - 2 ^ 64

/-- Wrap an integer into the `i64` range (release-mode wrapping semantics). -/
def wrap64 (x : Int) : Int :=
  (x + 2 ^ 63) % 2 ^ 64 - 2 ^ 63

/-- Rust `i64 as u64` (two's complement reinterpretation). -/
def toU64 (x : Int) : Nat :=
  (x % 2 ^ 64).toNat

/-! ## Data model (src/transfer.rs) -/

/-- Rust enum `TransferDirection` (src/transfer.rs). -/
inductive TransferDirection
  | Sent
  | Received
deriving DecidableEq, Repr

/-- Rust struct `UsdcTransfer` (src/transfer.rs); the Rust fields `from` and
`to` are named `from_owner` / `to_owner` here (`from` is a Lean keyword).
`timestamp` is the UTC instant as Unix seconds. -/
structure UsdcTransfer where
  signature : String
  timestamp : Int
  amount : Nat
  direction : TransferDirection
  from_owner : String
  to_owner : String
deriving DecidableEq, Repr

/-- Rust struct `TokenTransferInfo` (src/transfer.rs). -/
structure TokenTransferInfo where
  mint : String
  amount : Nat
  from_owner : String
  to_owner : String
deriving DecidableEq, Repr

/-- One `UiTransactionTokenBalance` entry: account index, mint, optional
owner, and `ui_token_amount.amount` (raw amount as a decimal string). -/
structure TokenBalance where
  accountIndex : Nat
  mint : String
  owner : Option String
  amount : String
deriving DecidableEq, Repr

/-- The slice of `UiTransactionStatusMeta` the reconciler reads. -/
structure Meta where
  preTokenBalances : Option (List TokenBalance)
  postTokenBalances : Option (List TokenBalance)
deriving DecidableEq, Repr

/-! ## Reconciler (src/utils.rs) -/

/-- USDC mainnet mint (src/utils.rs). -/
def USDC_MAINNET : String := "EPjFWdd5AufqSSqeM2qN1xzybapC8G4wEGGkZwyTDt1v"

/-- USDC devnet mint (src/utils.rs). -/
def USDC_DEVNET : String := "4zMMC9srt5Ri5X14GAgXhaHii3GnPAEERYPJgZJDncDU"

/-- Rust `is_usdc_mint` (src/utils.rs). -/
def is_usdc_mint (mint : String) : Bool :=
  mint = USDC_MAINNET || mint = USDC_DEVNET

/-- Rust `parse_token_amount` helper `str::parse::<u64>()`: optional leading
`'+'`, nonempty all-digit body, value within `u64`. -/
def parseU64 (s : String) : Option Nat :=
  let body := match s.toList with
    | '+' :: rest => rest
    | cs => cs
  if body.isEmpty then none
  else if body.all Char.isDigit then
    let n := body.foldl (fun acc c => acc * 10 + (c.toNat - 48)) 0
    if n < 2 ^ 64 then some n else none
  else none

/-- Rust `parse_token_amount` (src/utils.rs): `parse::<u64>().unwrap_or(0)`. -/
def parse_token_amount (s : String) : Nat :=
  (parseU64 s).getD 0

/-- `HashMap::insert` iterated over the balance list then `get`: the last
entry with the given account index wins. -/
def mapLookup (l : List TokenBalance) (i : Nat) : Option TokenBalance :=
  l.foldl (fun acc b => if b.accountIndex = i then some b else acc) none

/-- Whether the index occurs in either snapshot list (membership in the
`all_accounts` HashSet). -/
def hasIndex (pre post : List TokenBalance) (i : Nat) : Bool :=
  pre.any (fun b => b.accountIndex = i) || post.any (fun b => b.accountIndex = i)

/-- Mint of an account index: pre-snapshot entry preferred, else post
(src/utils.rs lines 48–54). -/
def resolveMint (pre post : List TokenBalance) (i : Nat) : Option String :=
  match mapLookup pre i with
  | some b => some b.mint
  | none =>
    match mapLookup post i with
    | some b => some b.mint
    | none => none

/-- Balance of an index in one snapshot map, 0 when absent
(src/utils.rs lines 70–80). -/
def amountAt (l : List TokenBalance) (i : Nat) : Nat :=
  match mapLookup l i with
  | some b => parse_token_amount b.amount
  | none => 0

/-- `post_amount as i64 - pre_amount as i64` (src/utils.rs line 82). -/
def computeChange (pre post : List TokenBalance) (i : Nat) : Int :=
  wrap64 (toI64 (amountAt post i) - toI64 (amountAt pre i))

/-- Owner of an index: post-snapshot owner preferred, else pre, else `""`
(`unwrap_or_default`, src/utils.rs lines 85–91). -/
def resolveOwner (pre post : List TokenBalance) (i : Nat) : String :=
  match mapLookup post i with
  | some b => b.owner.getD ""
  | none =>
    match mapLookup pre i with
    | some b => b.owner.getD ""
    | none => ""

/-- The `balance_changes` vector of one mint group, in group order: indices
with nonzero delta, with their delta and resolved owner
(src/utils.rs lines 67–95). -/
def balanceChanges (pre post : List TokenBalance) (group : List Nat) :
    List (Nat × Int × String) :=
  group.filterMap (fun i =>
    let c := computeChange pre post i
    if c = 0 then none else some (i, c, resolveOwner pre post i))

/-- Remove the first element whose `i64 as u64` delta equals `amt`
(`increases.iter().position(..)` then `remove`, src/utils.rs lines 110–111). -/
def findRemove (amt : Nat) :
    List (Nat × Int × String) →
    Option ((Nat × Int × String) × List (Nat × Int × String))
  | [] => none
  | b :: rest =>
    if toU64 b.2.1 = amt then some (b, rest)
    else
      match findRemove amt rest with
      | none => none
      | some (x, rest1) => some (x, b :: rest1)

/-- The `while let Some(decrease) = decreases.pop()` matching loop
(src/utils.rs lines 106–120).  The caller passes the decreases already
reversed, so head-first consumption here is `Vec::pop` order. -/
def matchLoop (mint : String) :
    List (Nat × Int × String) → List (Nat × Int × String) →
    List TokenTransferInfo
  | [], _ => []
  | d :: ds, incs =>
    let amt := toU64 (wrap64 (-(d.2.1)))
    match findRemove amt incs with
    | some (inc, incs1) =>
      ⟨mint, amt, d.2.2, inc.2.2⟩ :: matchLoop mint ds incs1
    | none => matchLoop mint ds incs

/-- One mint group: balance changes, split into decreases/increases, matched
(src/utils.rs lines 66–120). -/
def processGroup (pre post : List TokenBalance) (m : String) (group : List Nat) :
    List TokenTransferInfo :=
  let bcs := balanceChanges pre post group
  let decreases := bcs.filter (fun b => b.2.1 < 0)
  let increases := bcs.filter (fun b => 0 < b.2.1)
  matchLoop m decreases.reverse increases

/-- Rust `parse_token_transfers` (src/utils.rs).  `ord` is the iteration
order of the `all_accounts` HashSet, `mintOrd` the iteration order of the
`mint_accounts` HashMap keys; each mint group is `ord` filtered to indices
resolving to that mint, exactly as the push-while-iterating construction
produces.  Non-tracked mints are skipped; an empty transfer list is returned
as `none`. -/
def parse_token_transfers (meta : Meta) (ord : List Nat)
    (mintOrd : List String) : Option (List TokenTransferInfo) :=
  match meta.preTokenBalances, meta.postTokenBalances with
  | some pre, some post =>
    let transfers := mintOrd.flatMap (fun m =>
      if is_usdc_mint m then
        processGroup pre post m
          (ord.filter (fun i => resolveMint pre post i = some m))
      else [])
    if transfers.isEmpty then none else some transfers
  | _, _ => none

/-- The account-index enumeration `ord` is a valid iteration order of the
`all_accounts` HashSet: duplicate-free and containing exactly the indices
occurring in either snapshot list. -/
def validOrd (pre post : List TokenBalance) (ord : List Nat) : Prop :=
  ord.Nodup ∧ (∀ i ∈ ord, hasIndex pre post i = true) ∧
    (∀ b ∈ pre, b.accountIndex ∈ ord) ∧ (∀ b ∈ post, b.accountIndex ∈ ord)

/-- The mint enumeration `mintOrd` is a valid iteration order of the
`mint_accounts` HashMap keys: duplicate-free, every listed mint is assigned
to some index of `ord`, and every assigned mint is listed. -/
def validMintOrd (pre post : List TokenBalance) (ord : List Nat)
    (mintOrd : List String) : Prop :=
  mintOrd.Nodup ∧
    (∀ m ∈ mintOrd, ∃ i ∈ ord, resolveMint pre post i = some m) ∧
    (∀ i ∈ ord, ∀ m ∈ (resolveMint pre post i).toList, m ∈ mintOrd)

instance (pre post : List TokenBalance) (ord : List Nat) :
    Decidable (validOrd pre post ord) := by
  unfold validOrd; infer_instance

instance (pre post : List TokenBalance) (ord : List Nat) (mintOrd : List String) :
    Decidable (validMintOrd pre post ord mintOrd) := by
  unfold validMintOrd; infer_instance

/-! ## Backfill controller (src/main.rs) -/

/-- Models chrono `DateTime::from_timestamp(secs, 0).unwrap_or(now)`
(src/main.rs lines 95–96 and 168–169): the timestamp itself inside chrono's
representable range, otherwise the fallback `now`. -/
def fromTimestamp (now secs : Int) : Int :=
  if -8334632851200 ≤ secs ∧ secs ≤ 8210298412799 then secs else now

/-- One element of the `get_signatures_for_address` response
(`RpcConfirmedTransactionStatusWithSignature`): signature string, optional
block time, optional execution error. -/
structure SigInfo where
  signature : String
  blockTime : Option Int
  err : Option String
deriving DecidableEq, Repr

/-- The slice of a `get_transaction` response `process_transaction` reads:
optional block time and optional meta. -/
structure TxDetail where
  blockTime : Option Int
  meta : Option Meta
deriving DecidableEq, Repr

/-- Models `SolanaIndexer::new` (src/main.rs lines 46–59): client
construction always succeeds; the wallet address must parse as a `Pubkey`,
otherwise the constructor fails ("Invalid wallet address"). -/
def SolanaIndexer.new (walletAddress : String) : Option (List Nat) :=
  pubkeyFromStr walletAddress

/-- The candidate loop of `process_transaction` (src/main.rs lines 173–198):
for each reconciled candidate with a tracked mint, parse both owners as
pubkeys (`?`: failure aborts the whole transaction), classify the direction
against the wallet, keep `Sent`/`Received`, drop unrelated candidates. -/
def classifyCandidates (wallet : List Nat) (sig : String) (ts : Int) :
    List TokenTransferInfo → Option (List UsdcTransfer)
  | [] => some []
  | c :: rest =>
    if is_usdc_mint c.mint then
      match pubkeyFromStr c.from_owner with
      | none => none
      | some fk =>
        match pubkeyFromStr c.to_owner with
        | none => none
        | some tk =>
          let dir : Option TransferDirection :=
            if fk = wallet then some TransferDirection.Sent
            else if tk = wallet then some TransferDirection.Received
            else none
          match classifyCandidates wallet sig ts rest with
          | none => none
          | some more =>
            match dir with
            | some d => some (⟨sig, ts, c.amount, d, c.from_owner, c.to_owner⟩ :: more)
            | none => some more
    else classifyCandidates wallet sig ts rest

/-- Rust `process_transaction` (src/main.rs lines 154–204).  `fetch` is the
`get_transaction` collaborator (`none` = RPC failure, propagated as `Err`);
`orders` supplies the per-call hash-container iteration orders consumed by
`parse_token_transfers`.  The stored signature string is the canonical
rendering of the parsed signature, i.e. the input string. -/
def process_transaction (wallet : List Nat) (fetch : String → Option TxDetail)
    (orders : String → List Nat × List String) (now : Int) (sig : String) :
    Option (List UsdcTransfer) :=
  match fetch sig with
  | none => none
  | some tx =>
    match tx.meta with
    | none => some []
    | some meta =>
      match tx.blockTime with
      | none => some []
      | some bt =>
        let ts := fromTimestamp now bt
        match parse_token_transfers meta (orders sig).1 (orders sig).2 with
        | none => some []
        | some cands => classifyCandidates wallet sig ts cands

/-- Outcome of the per-page entry loop: the accepted transfers, the minimum
timestamp seen, the trace of signatures whose detail was fetched, and
whether a signature-parse failure aborted the run (the `?` on
`Signature::from_str`, src/main.rs line 111). -/
structure PageOutcome where
  batch : List UsdcTransfer
  oldest : Int
  fetchedSigs : List String
  failed : Bool
deriving DecidableEq, Repr

/-- The `for sig_info in &signatures` loop of one page (src/main.rs lines
92–122): update `oldest_time` from a known block time and break on a block
time strictly before `target`; skip entries carrying an execution error;
parse the signature (`?` aborts the run); invoke `process_transaction`,
extending the batch on success and skipping the entry on failure. -/
def processEntries (wallet : List Nat) (fetch : String → Option TxDetail)
    (orders : String → List Nat × List String) (target now : Int) :
    List SigInfo → Int → PageOutcome
  | [], oldest => ⟨[], oldest, [], false⟩
  | e :: rest, oldest =>
    match e.blockTime with
    | some bt =>
      let t := fromTimestamp now bt
      let oldest1 := min oldest t
      if t < target then ⟨[], oldest1, [], false⟩
      else if e.err.isSome then
        processEntries wallet fetch orders target now rest oldest1
      else
        match signatureFromStr e.signature with
        | none => ⟨[], oldest1, [], true⟩
        | some _ =>
          match process_transaction wallet fetch orders now e.signature with
          | some ts =>
            let r := processEntries wallet fetch orders target now rest oldest1
            ⟨ts ++ r.batch, r.oldest, e.signature :: r.fetchedSigs, r.failed⟩
          | none =>
            let r := processEntries wallet fetch orders target now rest oldest1
            ⟨r.batch, r.oldest, e.signature :: r.fetchedSigs, r.failed⟩
    | none =>
      if e.err.isSome then
        processEntries wallet fetch orders target now rest oldest
      else
        match signatureFromStr e.signature with
        | none => ⟨[], oldest, [], true⟩
        | some _ =>
          match process_transaction wallet fetch orders now e.signature with
          | some ts =>
            let r := processEntries wallet fetch orders target now rest oldest
            ⟨ts ++ r.batch, r.oldest, e.signature :: r.fetchedSigs, r.failed⟩
          | none =>
            let r := processEntries wallet fetch orders target now rest oldest
            ⟨r.batch, r.oldest, e.signature :: r.fetchedSigs, r.failed⟩

/-- Outcome of one backfill run: the final result (`none` = the run aborted
with an error or panic), how many signature pages were requested, and the
trace of signatures whose transaction detail was fetched. -/
structure BackfillOutcome where
  result : Option (List UsdcTransfer)
  pagesFetched : Nat
  fetchedSigs : List String
deriving DecidableEq, Repr

/-- The pagination loop of `backfill_usdc_transfers` (src/main.rs lines
70–142) over a synthetic paginated source: `pages` is the sequence of
responses the RPC serves to successive cursors, an exhausted source serving
the empty page.  Mirrors the source order of checks: empty page → stop;
process entries; `oldest_time < target_time` → stop; set the next cursor
(`Signature::from_str(..).unwrap()` — an unparseable last signature panics);
short page → stop; otherwise continue with the next page. -/
def backfillLoop (wallet : List Nat) (fetch : String → Option TxDetail)
    (orders : String → List Nat × List String) (target now : Int) :
    List (List SigInfo) → List UsdcTransfer → Nat → List String →
    BackfillOutcome
  | [], acc, pagesDone, sigsDone => ⟨some acc, pagesDone + 1, sigsDone⟩
  | [] :: _, acc, pagesDone, sigsDone => ⟨some acc, pagesDone + 1, sigsDone⟩
  | (e :: es) :: rest, acc, pagesDone, sigsDone =>
    let po := processEntries wallet fetch orders target now (e :: es) now
    if po.failed then ⟨none, pagesDone + 1, sigsDone ++ po.fetchedSigs⟩
    else
      let acc1 := acc ++ po.batch
      let sigs1 := sigsDone ++ po.fetchedSigs
      if po.oldest < target then ⟨some acc1, pagesDone + 1, sigs1⟩
      else
        match signatureFromStr (es.getLastD e).signature with
        | none => ⟨none, pagesDone + 1, sigs1⟩
        | some _ =>
          if (e :: es).length < 1000 then ⟨some acc1, pagesDone + 1, sigs1⟩
          else backfillLoop wallet fetch orders target now rest acc1
            (pagesDone + 1) sigs1

/-- Rust `backfill_usdc_transfers` (src/main.rs lines 61–152):
`target_time = now - Duration::hours(hours_back as i64)`, the pagination
loop, then the final filter keeping only transfers with
`timestamp >= target_time`. -/
def backfill_usdc_transfers (wallet : List Nat)
    (fetch : String → Option TxDetail)
    (orders : String → List Nat × List String) (now : Int) (hoursBack : Nat)
    (pages : List (List SigInfo)) : BackfillOutcome :=
  let target := now - toI64 hoursBack * 3600
  let o := backfillLoop wallet fetch orders target now pages [] 0 []
  { o with result := o.result.map (fun l =>
      l.filter (fun t => target ≤ t.timestamp)) }

/-- An entry that keeps a page both in the time window and free of run-fatal
conditions: any known block time is not strictly before `target`, and the
signature string parses. -/
def cleanEntry (target now : Int) (e : SigInfo) : Bool :=
  (match e.blockTime with
   | some bt => if target ≤ fromTimestamp now bt then true else false
   | none => true) && (signatureFromStr e.signature).isSome

/-! ## Concrete fixtures used by counterexamples and witnesses -/

/-- A valid wallet address: 32 base58 zero digits (decodes to 32 zero bytes). -/
def fxW : String := String.mk (List.replicate 32 '1')

/-- The pubkey bytes of `fxW`. -/
def fxWKey : List Nat := List.replicate 32 0

/-- A valid transaction signature string (64 zero bytes). -/
def fxSig : String := String.mk (List.replicate 64 '1')

/-- Fixed hash-container iteration orders for two-index snapshots. -/
def fxOrders : String → List Nat × List String :=
  fun _ => ([0, 1], [USDC_MAINNET])

/-- A detail oracle whose every fetch fails. -/
def fxFetchNone : String → Option TxDetail := fun _ => none

/-- Self-transfer snapshots: both token accounts are owned by the wallet. -/
def fxPre2 : List TokenBalance :=
  [⟨0, USDC_MAINNET, some fxW, "100"⟩, ⟨1, USDC_MAINNET, some fxW, "0"⟩]

/-- Post snapshots of the self transfer. -/
def fxPost2 : List TokenBalance :=
  [⟨0, USDC_MAINNET, some fxW, "0"⟩, ⟨1, USDC_MAINNET, some fxW, "100"⟩]

/-- Meta of the self-transfer transaction. -/
def fxMeta2 : Meta := ⟨some fxPre2, some fxPost2⟩

/-- Detail oracle serving the self-transfer transaction. -/
def fxFetch2 : String → Option TxDetail := fun _ => some ⟨some 500, some fxMeta2⟩

/-- The event the indexer produces for the self transfer. -/
def fxEvt2 : UsdcTransfer :=
  ⟨fxSig, 500, 100, TransferDirection.Sent, fxW, fxW⟩

/-- A single one-entry page carrying the valid signature. -/
def fxPages8 : List (List SigInfo) := [[⟨fxSig, some 500, none⟩]]

/-- Two equal-magnitude decreases and increases (ambiguous pairing). -/
def fxPre3 : List TokenBalance :=
  [⟨0, USDC_MAINNET, some "A", "10"⟩, ⟨1, USDC_MAINNET, some "B", "10"⟩,
   ⟨2, USDC_MAINNET, some "C", "0"⟩, ⟨3, USDC_MAINNET, some "D", "0"⟩]

/-- Post snapshots of the ambiguous transaction. -/
def fxPost3 : List TokenBalance :=
  [⟨0, USDC_MAINNET, some "A", "0"⟩, ⟨1, USDC_MAINNET, some "B", "0"⟩,
   ⟨2, USDC_MAINNET, some "C", "10"⟩, ⟨3, USDC_MAINNET, some "D", "10"⟩]

/-- Pre snapshots with a USDC entry at index 0. -/
def fxPre6 : List TokenBalance :=
  [⟨0, USDC_MAINNET, some "A", "100"⟩, ⟨1, USDC_MAINNET, some "B", "0"⟩]

/-- Post snapshots whose index-0 entry carries a different, untracked mint
(owner "X", balance 0). -/
def fxPost6 : List TokenBalance :=
  [⟨0, "OTHERMINT", some "X", "0"⟩, ⟨1, USDC_MAINNET, some "B", "100"⟩]

/-- Simple single-decrease/single-increase pre snapshots. -/
def fxPre4 : List TokenBalance :=
  [⟨0, USDC_MAINNET, some "A", "100"⟩, ⟨1, USDC_MAINNET, some "B", "0"⟩]

/-- Simple single-decrease/single-increase post snapshots. -/
def fxPost4 : List TokenBalance :=
  [⟨0, USDC_MAINNET, some "A", "0"⟩, ⟨1, USDC_MAINNET, some "B", "100"⟩]

/-- Snapshots with one decrease of 100 and one increase of 50 (no match). -/
def fxPre5 : List TokenBalance :=
  [⟨0, USDC_MAINNET, some "A", "100"⟩, ⟨1, USDC_MAINNET, some "B", "0"⟩]

/-- Post snapshots of the mismatched-magnitudes transaction. -/
def fxPost5 : List TokenBalance :=
  [⟨0, USDC_MAINNET, some "A", "0"⟩, ⟨1, USDC_MAINNET, some "B", "50"⟩]

/-- Snapshots whose reconciled candidate has the empty owner string. -/
def fxPre9 : List TokenBalance :=
  [⟨0, USDC_MAINNET, some "", "100"⟩, ⟨1, USDC_MAINNET, some fxW, "0"⟩]

/-- Post snapshots of the empty-owner transaction. -/
def fxPost9 : List TokenBalance :=
  [⟨0, USDC_MAINNET, some "", "0"⟩, ⟨1, USDC_MAINNET, some fxW, "100"⟩]

/-- Meta of the empty-owner transaction. -/
def fxMeta9 : Meta := ⟨some fxPre9, some fxPost9⟩

/-- Detail oracle serving the empty-owner transaction. -/
def fxFetch9 : String → Option TxDetail := fun _ => some ⟨some 500, some fxMeta9⟩

/-- Pre snapshots whose index-0 raw amount fails to parse as u64. -/
def fxPre10 : List TokenBalance :=
  [⟨0, USDC_MAINNET, some "A", "abc"⟩, ⟨1, USDC_MAINNET, some "B", "100"⟩]

/-- Post snapshots pairing the malformed entry into a transfer. -/
def fxPost10 : List TokenBalance :=
  [⟨0, USDC_MAINNET, some "A", "100"⟩, ⟨1, USDC_MAINNET, some "B", "0"⟩]

/-- An in-window entry with a valid signature and no execution error. -/
def fxGoodE : SigInfo := ⟨fxSig, some 500, none⟩

/-- An entry whose block time lies strictly before the target instant. -/
def fxOldE : SigInfo := ⟨fxSig, some (-10000), none⟩

/-- An in-window entry sitting after the old entry in the same page. -/
def fxTailE : SigInfo := ⟨fxSig, some 600, none⟩

/-! ## Helper lemmas -/

theorem wrap64_eq_self {x : Int} (h1 : -(2 ^ 63) ≤ x) (h2 : x < 2 ^ 63) :
    wrap64 x = x := by
  unfold wrap64
  have e1 : (2 : Int) ^ 63 = 9223372036854775808 := by norm_num
  have e2 : (2 : Int) ^ 64 = 18446744073709551616 := by norm_num
  rw [e1, e2] at *
  omega

theorem toU64_natCast {n : Nat} (h : n < 2 ^ 64) : toU64 (n : Int) = n := by
  unfold toU64
  have e2 : (2 : Int) ^ 64 = 18446744073709551616 := by norm_num
  have h2 : (n : Int) < 18446744073709551616 := by exact_mod_cast h
  rw [e2]
  omega

theorem getLastD_mem {α : Type} : ∀ (es : List α) (e : α), es.getLastD e ∈ e :: es := by
  intro es
  induction es with
  | nil => intro e; simp [List.getLastD]
  | cons x xs ih =>
    intro e
    rw [List.getLastD_cons]
    have := ih x
    rcases List.mem_cons.mp this with h | h
    · rw [h]; exact List.mem_cons_of_mem _ (List.mem_cons_self _ _)
    · exact List.mem_cons_of_mem _ (List.mem_cons_of_mem _ h)

theorem mapLookup_go {i : Nat} {b : TokenBalance} :
    ∀ (l : List TokenBalance) (acc : Option TokenBalance),
      l.foldl (fun acc b => if b.accountIndex = i then some b else acc) acc = some b →
      (b ∈ l ∧ b.accountIndex = i) ∨ acc = some b := by
  intro l
  induction l with
  | nil => intro acc h; exact Or.inr h
  | cons a l ih =>
    intro acc h
    simp only [List.foldl_cons] at h
    rcases ih _ h with ⟨hm, hi⟩ | hacc
    · exact Or.inl ⟨List.mem_cons_of_mem _ hm, hi⟩
    · by_cases ha : a.accountIndex = i
      · rw [if_pos ha] at hacc
        cases hacc
        exact Or.inl ⟨List.mem_cons_self _ _, ha⟩
      · rw [if_neg ha] at hacc
        exact Or.inr hacc

theorem mapLookup_eq_some {l : List TokenBalance} {i : Nat} {b : TokenBalance}
    (h : mapLookup l i = some b) : b ∈ l ∧ b.accountIndex = i := by
  rcases mapLookup_go l none h with hb | hb
  · exact hb
  · cases hb

theorem resolveMint_mem_ord {pre post : List TokenBalance} {ord : List Nat}
    {i : Nat} {m : String} (hv : validOrd pre post ord)
    (h : resolveMint pre post i = some m) : i ∈ ord := by
  unfold resolveMint at h
  cases hpre : mapLookup pre i with
  | some b =>
    rcases mapLookup_eq_some hpre with ⟨hm, hi⟩
    exact hi ▸ hv.2.2.1 b hm
  | none =>
    rw [hpre] at h
    cases hpost : mapLookup post i with
    | some b =>
      rcases mapLookup_eq_some hpost with ⟨hm, hi⟩
      exact hi ▸ hv.2.2.2 b hm
    | none => rw [hpost] at h; cases h

theorem flatMap_eq_nil_of {α β : Type} {l : List α} {f : α → List β}
    (h : ∀ a ∈ l, f a = []) : l.flatMap f = [] := by
  induction l with
  | nil => rfl
  | cons a l ih =>
    simp only [List.flatMap_cons, h a (List.mem_cons_self _ _),
      List.nil_append]
    exact ih fun x hx => h x (List.mem_cons_of_mem _ hx)

theorem flatMap_eq_of_unique {α β : Type} [DecidableEq α] {l : List α}
    {f : α → List β} {a0 : α} (hnd : l.Nodup) (hm : a0 ∈ l)
    (ho : ∀ a ∈ l, a ≠ a0 → f a = []) : l.flatMap f = f a0 := by
  induction l with
  | nil => cases hm
  | cons x xs ih =>
    rcases List.mem_cons.mp hm with h | h
    · subst h
      have : xs.flatMap f = [] := by
        refine flatMap_eq_nil_of fun y hy => ?_
        refine ho y (List.mem_cons_of_mem _ hy) ?_
        rintro rfl
        exact (List.nodup_cons.mp hnd).1 hy
      simp [List.flatMap_cons, this]
    · have hx : f x = [] := by
        refine ho x (List.mem_cons_self _ _) ?_
        rintro rfl
        exact (List.nodup_cons.mp hnd).1 h
      simp only [List.flatMap_cons, hx, List.nil_append]
      exact ih (List.nodup_cons.mp hnd).2 h
        fun y hy => ho y (List.mem_cons_of_mem _ hy)

theorem filterMap_eq_nil_of {α β : Type} {l : List α} {F : α → Option β}
    (h : ∀ a ∈ l, F a = none) : l.filterMap F = [] := by
  induction l with
  | nil => rfl
  | cons a l ih =>
    simp only [List.filterMap_cons, h a (List.mem_cons_self _ _)]
    exact ih fun x hx => h x (List.mem_cons_of_mem _ hx)

theorem filterMap_eq_singleton {α β : Type} [DecidableEq α] {l : List α}
    {F : α → Option β} {a : α} {v : β} (hnd : l.Nodup) (ha : a ∈ l)
    (hv : F a = some v) (ho : ∀ x ∈ l, x ≠ a → F x = none) :
    l.filterMap F = [v] := by
  induction l with
  | nil => cases ha
  | cons x xs ih =>
    rcases List.mem_cons.mp ha with h | h
    · subst h
      have : xs.filterMap F = [] := by
        refine filterMap_eq_nil_of fun y hy => ?_
        refine ho y (List.mem_cons_of_mem _ hy) ?_
        rintro rfl
        exact (List.nodup_cons.mp hnd).1 hy
      simp [List.filterMap_cons, hv, this]
    · have hx : F x = none := by
        refine ho x (List.mem_cons_self _ _) ?_
        rintro rfl
        exact (List.nodup_cons.mp hnd).1 h
      simp only [List.filterMap_cons, hx]
      exact ih (List.nodup_cons.mp hnd).2 h
        fun y hy => ho y (List.mem_cons_of_mem _ hy)

theorem filterMap_filter {α β : Type} (l : List α) (F : α → Option β)
    (p : β → Bool) :
    (l.filterMap F).filter p = l.filterMap (fun a =>
      match F a with
      | some b => if p b then some b else none
      | none => none) := by
  induction l with
  | nil => rfl
  | cons a l ih =>
    simp only [List.filterMap_cons]
    cases hF : F a with
    | none => simpa using ih
    | some b =>
      by_cases hp : p b = true
      · simp [List.filter_cons, hp, ih]
      · simp only [Bool.not_eq_true] at hp
        simp [List.filter_cons, hp, ih]

theorem findRemove_eq_none {amt : Nat} :
    ∀ {l : List (Nat × Int × String)},
      (∀ x ∈ l, toU64 x.2.1 ≠ amt) → findRemove amt l = none := by
  intro l
  induction l with
  | nil => intro _; rfl
  | cons b rest ih =>
    intro h
    unfold findRemove
    rw [if_neg (h b (List.mem_cons_self _ _))]
    rw [ih fun x hx => h x (List.mem_cons_of_mem _ hx)]

theorem findRemove_eq_some {amt : Nat} :
    ∀ {l rest : List (Nat × Int × String)} {x : Nat × Int × String},
      findRemove amt l = some (x, rest) →
      x ∈ l ∧ toU64 x.2.1 = amt ∧ ∀ y ∈ rest, y ∈ l := by
  intro l
  induction l with
  | nil => intro rest x h; cases h
  | cons b tl ih =>
    intro rest x h
    unfold findRemove at h
    by_cases hb : toU64 b.2.1 = amt
    · rw [if_pos hb] at h
      injection h with h
      injection h with h1 h2
      subst h1; subst h2
      exact ⟨List.mem_cons_self _ _, hb, fun y hy => List.mem_cons_of_mem _ hy⟩
    · rw [if_neg hb] at h
      cases hf : findRemove amt tl with
      | none => rw [hf] at h; cases h
      | some pr =>
        rw [hf] at h
        obtain ⟨x1, rest1⟩ := pr
        injection h with h
        injection h with h1 h2
        subst h1; subst h2
        rcases ih hf with ⟨hm, ha, hsub⟩
        refine ⟨List.mem_cons_of_mem _ hm, ha, fun y hy => ?_⟩
        rcases List.mem_cons.mp hy with rfl | hy
        · exact List.mem_cons_self _ _
        · exact List.mem_cons_of_mem _ (hsub y hy)

theorem matchLoop_eq_nil {m : String} :
    ∀ {ds incs : List (Nat × Int × String)},
      (∀ d ∈ ds, ∀ x ∈ incs, toU64 (wrap64 (-(d.2.1))) ≠ toU64 x.2.1) →
      matchLoop m ds incs = [] := by
  intro ds
  induction ds with
  | nil => intro _ _; rfl
  | cons d tl ih =>
    intro incs h
    have hnone : findRemove (toU64 (wrap64 (-(d.2.1)))) incs = none :=
      findRemove_eq_none fun x hx he => h d (List.mem_cons_self _ _) x hx he.symm
    simp only [matchLoop, hnone]
    exact ih fun d1 hd x hx => h d1 (List.mem_cons_of_mem _ hd) x hx

theorem matchLoop_mem {m : String} :
    ∀ {ds incs : List (Nat × Int × String)} {t : TokenTransferInfo},
      t ∈ matchLoop m ds incs →
      t.mint = m ∧
        (∃ d ∈ ds, toU64 (wrap64 (-(d.2.1))) = t.amount ∧ d.2.2 = t.from_owner) ∧
        (∃ x ∈ incs, toU64 x.2.1 = t.amount ∧ x.2.2 = t.to_owner) := by
  intro ds
  induction ds with
  | nil => intro incs t h; cases h
  | cons d tl ih =>
    intro incs t h
    simp only [matchLoop] at h
    cases hf : findRemove (toU64 (wrap64 (-(d.2.1)))) incs with
    | none =>
      rw [hf] at h
      simp only [] at h
      rcases ih h with ⟨h1, ⟨d1, hd1, hd2⟩, hx⟩
      exact ⟨h1, ⟨d1, List.mem_cons_of_mem _ hd1, hd2⟩, hx⟩
    | some pr =>
      obtain ⟨inc, incs1⟩ := pr
      rw [hf] at h
      rcases findRemove_eq_some hf with ⟨hincm, hamt, hsub⟩
      rcases List.mem_cons.mp h with rfl | h
      · exact ⟨rfl, ⟨d, List.mem_cons_self _ _, rfl, rfl⟩,
          ⟨inc, hincm, hamt, rfl⟩⟩
      · rcases ih h with ⟨h1, ⟨d1, hd1, hd2⟩, ⟨x1, hx1, hx2⟩⟩
        exact ⟨h1, ⟨d1, List.mem_cons_of_mem _ hd1, hd2⟩,
          ⟨x1, hsub x1 hx1, hx2⟩⟩

theorem balanceChanges_mem {pre post : List TokenBalance} {g : List Nat}
    {b : Nat × Int × String} (h : b ∈ balanceChanges pre post g) :
    b.1 ∈ g ∧ b.2.1 = computeChange pre post b.1 ∧
      b.2.1 ≠ 0 ∧ b.2.2 = resolveOwner pre post b.1 := by
  unfold balanceChanges at h
  rcases List.mem_filterMap.mp h with ⟨i, hig, hF⟩
  by_cases hc : computeChange pre post i = 0
  · simp only [hc, if_pos] at hF
    simp at hF
  · rw [if_neg hc] at hF
    injection hF with hF
    subst hF
    exact ⟨hig, rfl, hc, rfl⟩

theorem processGroup_mem {pre post : List TokenBalance} {m : String}
    {g : List Nat} {t : TokenTransferInfo} (h : t ∈ processGroup pre post m g) :
    t.mint = m ∧
      (∃ i ∈ g, computeChange pre post i < 0 ∧
        toU64 (wrap64 (-(computeChange pre post i))) = t.amount ∧
        resolveOwner pre post i = t.from_owner) ∧
      (∃ j ∈ g, 0 < computeChange pre post j ∧
        toU64 (computeChange pre post j) = t.amount ∧
        resolveOwner pre post j = t.to_owner) := by
  unfold processGroup at h
  rcases matchLoop_mem h with ⟨h1, ⟨d, hd, hd2, hd3⟩, ⟨x, hx, hx2, hx3⟩⟩
  have hd' := List.mem_reverse.mp hd
  rcases List.mem_filter.mp hd' with ⟨hdb, hdneg⟩
  rcases List.mem_filter.mp hx with ⟨hxb, hxpos⟩
  rcases balanceChanges_mem hdb with ⟨hdg, hdc, _, hdo⟩
  rcases balanceChanges_mem hxb with ⟨hxg, hxc, _, hxo⟩
  have hdneg' : d.2.1 < 0 := by simpa using hdneg
  have hxpos' : 0 < x.2.1 := by simpa using hxpos
  refine ⟨h1, ⟨d.1, hdg, ?_, ?_, ?_⟩, ⟨x.1, hxg, ?_, ?_, ?_⟩⟩
  · rw [← hdc]; exact hdneg'
  · rw [← hdc]; exact hd2
  · rw [← hdo]; exact hd3
  · rw [← hxc]; exact hxpos'
  · rw [← hxc]; exact hx2
  · rw [← hxo]; exact hx3

theorem parse_mem {meta : Meta} {pre post : List TokenBalance}
    {ord : List Nat} {mintOrd : List String} {l : List TokenTransferInfo}
    {t : TokenTransferInfo} (hpre : meta.preTokenBalances = some pre)
    (hpost : meta.postTokenBalances = some post)
    (hl : parse_token_transfers meta ord mintOrd = some l) (ht : t ∈ l) :
    is_usdc_mint t.mint = true ∧
      (∃ i, i ∈ ord ∧ resolveMint pre post i = some t.mint ∧
        computeChange pre post i < 0 ∧
        toU64 (wrap64 (-(computeChange pre post i))) = t.amount ∧
        resolveOwner pre post i = t.from_owner) ∧
      (∃ j, j ∈ ord ∧ resolveMint pre post j = some t.mint ∧
        0 < computeChange pre post j ∧
        toU64 (computeChange pre post j) = t.amount ∧
        resolveOwner pre post j = t.to_owner) := by
  unfold parse_token_transfers at hl
  rw [hpre, hpost] at hl
  simp only [] at hl
  by_cases he : (mintOrd.flatMap (fun m =>
      if is_usdc_mint m then
        processGroup pre post m
          (ord.filter (fun i => resolveMint pre post i = some m))
      else [])).isEmpty
  · rw [if_pos he] at hl; cases hl
  · rw [if_neg he] at hl
    injection hl with hl
    subst hl
    rcases List.mem_flatMap.mp ht with ⟨m, hm, htm⟩
    by_cases hu : is_usdc_mint m = true
    · rw [if_pos hu] at htm
      rcases processGroup_mem htm with ⟨h1, ⟨i, hig, hi2, hi3, hi4⟩, ⟨j, hjg, hj2, hj3, hj4⟩⟩
      subst h1
      rcases List.mem_filter.mp hig with ⟨hio, him⟩
      rcases List.mem_filter.mp hjg with ⟨hjo, hjm⟩
      exact ⟨hu, ⟨i, hio, of_decide_eq_true him, hi2, hi3, hi4⟩,
        ⟨j, hjo, of_decide_eq_true hjm, hj2, hj3, hj4⟩⟩
    · rw [if_neg hu] at htm
      cases htm

theorem parse_mem_usdc {meta : Meta} {ord : List Nat} {mintOrd : List String}
    {l : List TokenTransferInfo} {t : TokenTransferInfo}
    (hl : parse_token_transfers meta ord mintOrd = some l) (ht : t ∈ l) :
    is_usdc_mint t.mint = true := by
  cases hpre : meta.preTokenBalances with
  | none => unfold parse_token_transfers at hl; rw [hpre] at hl; cases hl
  | some pre =>
    cases hpost : meta.postTokenBalances with
    | none => unfold parse_token_transfers at hl; rw [hpre, hpost] at hl; cases hl
    | some post => exact (parse_mem hpre hpost hl ht).1

theorem classify_mem {wallet : List Nat} {sig : String} {ts : Int} :
    ∀ {cands : List TokenTransferInfo} {l : List UsdcTransfer}
      {t : UsdcTransfer},
      classifyCandidates wallet sig ts cands = some l → t ∈ l →
      pubkeyFromStr t.from_owner = some wallet ∨
        pubkeyFromStr t.to_owner = some wallet := by
  intro cands
  induction cands with
  | nil =>
    intro l t hl ht
    injection hl with hl
    subst hl
    cases ht
  | cons c rest ih =>
    intro l t hl ht
    unfold classifyCandidates at hl
    by_cases hu : is_usdc_mint c.mint = true
    · rw [if_pos hu] at hl
      cases hfk : pubkeyFromStr c.from_owner with
      | none => rw [hfk] at hl; cases hl
      | some fk =>
        rw [hfk] at hl
        cases htk : pubkeyFromStr c.to_owner with
        | none => rw [htk] at hl; cases hl
        | some tk =>
          rw [htk] at hl
          simp only [] at hl
          cases hrest : classifyCandidates wallet sig ts rest with
          | none => rw [hrest] at hl; cases hl
          | some more =>
            rw [hrest] at hl
            by_cases hfw : fk = wallet
            · rw [if_pos hfw] at hl
              injection hl with hl
              subst hl
              rcases List.mem_cons.mp ht with rfl | ht
              · subst hfw; exact Or.inl hfk
              · exact ih hrest ht
            · rw [if_neg hfw] at hl
              by_cases htw : tk = wallet
              · rw [if_pos htw] at hl
                injection hl with hl
                subst hl
                rcases List.mem_cons.mp ht with rfl | ht
                · subst htw; exact Or.inr htk
                · exact ih hrest ht
              · rw [if_neg htw] at hl
                injection hl with hl
                subst hl
                exact ih hrest ht
    · rw [if_neg hu] at hl
      exact ih hl ht

theorem classify_none_of_bad {wallet : List Nat} {sig : String} {ts : Int} :
    ∀ {cands : List TokenTransferInfo} {c : TokenTransferInfo},
      c ∈ cands → is_usdc_mint c.mint = true →
      (pubkeyFromStr c.from_owner = none ∨ pubkeyFromStr c.to_owner = none) →
      classifyCandidates wallet sig ts cands = none := by
  intro cands
  induction cands with
  | nil => intro c hc; cases hc
  | cons a rest ih =>
    intro c hc hu hbad
    unfold classifyCandidates
    rcases List.mem_cons.mp hc with rfl | hc
    · rw [if_pos hu]
      rcases hbad with hbad | hbad
      · rw [hbad]
      · cases hfk : pubkeyFromStr c.from_owner with
        | none => rfl
        | some fk => rw [hbad]
    · by_cases hau : is_usdc_mint a.mint = true
      · rw [if_pos hau]
        cases hfk : pubkeyFromStr a.from_owner with
        | none => rfl
        | some fk =>
          cases htk : pubkeyFromStr a.to_owner with
          | none => rfl
          | some tk =>
            simp only []
            rw [ih hc hu hbad]
      · rw [if_neg hau]
        exact ih hc hu hbad

theorem process_transaction_mem {wallet : List Nat}
    {fetch : String → Option TxDetail}
    {orders : String → List Nat × List String} {now : Int} {sig : String}
    {l : List UsdcTransfer} {t : UsdcTransfer}
    (hr : process_transaction wallet fetch orders now sig = some l)
    (ht : t ∈ l) :
    pubkeyFromStr t.from_owner = some wallet ∨
      pubkeyFromStr t.to_owner = some wallet := by
  unfold process_transaction at hr
  cases hf : fetch sig with
  | none => rw [hf] at hr; cases hr
  | some tx =>
    rw [hf] at hr
    simp only [] at hr
    cases hm : tx.meta with
    | none =>
      rw [hm] at hr
      injection hr with hr
      subst hr
      cases ht
    | some meta =>
      rw [hm] at hr
      cases hb : tx.blockTime with
      | none =>
        rw [hb] at hr
        injection hr with hr
        subst hr
        cases ht
      | some bt =>
        rw [hb] at hr
        simp only [] at hr
        cases hp : parse_token_transfers meta (orders sig).1 (orders sig).2 with
        | none =>
          rw [hp] at hr
          injection hr with hr
          subst hr
          cases ht
        | some cands =>
          rw [hp] at hr
          exact classify_mem hr ht

theorem processEntries_not_failed {wallet : List Nat}
    {fetch : String → Option TxDetail}
    {orders : String → List Nat × List String} {target now : Int} :
    ∀ {es : List SigInfo},
      (∀ e ∈ es, (signatureFromStr e.signature).isSome = true) →
      ∀ o, (processEntries wallet fetch orders target now es o).failed = false := by
  intro es
  induction es with
  | nil => intro _ o; rfl
  | cons e rest ih =>
    intro h o
    have hs := h e (List.mem_cons_self _ _)
    have hrest := ih fun x hx => h x (List.mem_cons_of_mem _ hx)
    cases hsf : signatureFromStr e.signature with
    | none => rw [hsf] at hs; cases hs
    | some s =>
      cases hbt : e.blockTime with
      | some bt =>
        by_cases hlt : fromTimestamp now bt < target
        · simp [processEntries, hbt, hlt]
        · by_cases herr : e.err.isSome
          · simp [processEntries, hbt, hlt, herr, hrest]
          · cases hp : process_transaction wallet fetch orders now e.signature with
            | some ts => simp [processEntries, hbt, hlt, herr, hsf, hp, hrest]
            | none => simp [processEntries, hbt, hlt, herr, hsf, hp, hrest]
      | none =>
        by_cases herr : e.err.isSome
        · simp [processEntries, hbt, herr, hrest]
        · cases hp : process_transaction wallet fetch orders now e.signature with
          | some ts => simp [processEntries, hbt, herr, hsf, hp, hrest]
          | none => simp [processEntries, hbt, herr, hsf, hp, hrest]

theorem processEntries_batch_mem {wallet : List Nat}
    {fetch : String → Option TxDetail}
    {orders : String → List Nat × List String} {target now : Int} :
    ∀ {es : List SigInfo} {o : Int} {t : UsdcTransfer},
      t ∈ (processEntries wallet fetch orders target now es o).batch →
      ∃ s l, process_transaction wallet fetch orders now s = some l ∧ t ∈ l := by
  intro es
  induction es with
  | nil => intro o t h; cases h
  | cons e rest ih =>
    intro o t h
    cases hbt : e.blockTime with
    | some bt =>
      by_cases hlt : fromTimestamp now bt < target
      · simp [processEntries, hbt, hlt] at h
      · by_cases herr : e.err.isSome
        · simp only [processEntries, hbt] at h
          rw [if_neg hlt] at h
          simp only [herr, if_pos] at h
          exact ih h
        · cases hsf : signatureFromStr e.signature with
          | none =>
            simp [processEntries, hbt, hlt, herr, hsf] at h
          | some s =>
            cases hp : process_transaction wallet fetch orders now e.signature with
            | some ts =>
              simp only [processEntries, hbt] at h
              rw [if_neg hlt] at h
              simp only [herr, hsf, hp] at h
              simp only [Bool.false_eq_true, if_false] at h
              rcases List.mem_append.mp h with h | h
              · exact ⟨e.signature, ts, hp, h⟩
              · exact ih h
            | none =>
              simp only [processEntries, hbt] at h
              rw [if_neg hlt] at h
              simp only [herr, hsf, hp] at h
              simp only [Bool.false_eq_true, if_false] at h
              exact ih h
    | none =>
      by_cases herr : e.err.isSome
      · simp only [processEntries, hbt, herr, if_pos] at h
        exact ih h
      · cases hsf : signatureFromStr e.signature with
        | none => simp [processEntries, hbt, herr, hsf] at h
        | some s =>
          cases hp : process_transaction wallet fetch orders now e.signature with
          | some ts =>
            simp only [processEntries, hbt, herr, hsf, hp] at h
            simp only [Bool.false_eq_true, if_false] at h
            rcases List.mem_append.mp h with h | h
            · exact ⟨e.signature, ts, hp, h⟩
            · exact ih h
          | none =>
            simp only [processEntries, hbt, herr, hsf, hp] at h
            simp only [Bool.false_eq_true, if_false] at h
            exact ih h

theorem backfillLoop_isSome {wallet : List Nat}
    {fetch : String → Option TxDetail}
    {orders : String → List Nat × List String} {target now : Int} :
    ∀ {pages : List (List SigInfo)},
      (∀ p ∈ pages, ∀ e ∈ p, (signatureFromStr e.signature).isSome = true) →
      ∀ acc n sigs,
        (backfillLoop wallet fetch orders target now pages acc n sigs).result.isSome
          = true := by
  intro pages
  induction pages with
  | nil => intro _ acc n sigs; rfl
  | cons page rest ih =>
    intro h acc n sigs
    cases page with
    | nil => rfl
    | cons e es =>
      have hpf : (processEntries wallet fetch orders target now (e :: es) now).failed
          = false :=
        processEntries_not_failed (h _ (List.mem_cons_self _ _)) now
      have hl : (signatureFromStr (es.getLastD e).signature).isSome = true :=
        h _ (List.mem_cons_self _ _) _ (getLastD_mem es e)
      have hrest := ih fun p hp => h p (List.mem_cons_of_mem _ hp)
      cases hsf : signatureFromStr (es.getLastD e).signature with
      | none => rw [hsf] at hl; cases hl
      | some s =>
        by_cases hold :
            (processEntries wallet fetch orders target now (e :: es) now).oldest
              < target
        · simp only [backfillLoop, hpf]
          simp only [Bool.false_eq_true, if_false, if_pos hold]
          rfl
        · by_cases hlen : (e :: es).length < 1000
          · simp only [backfillLoop, hpf]
            simp only [Bool.false_eq_true, if_false, if_neg hold, hsf,
              if_pos hlen]
            rfl
          · simp only [backfillLoop, hpf]
            simp only [Bool.false_eq_true, if_false, if_neg hold, hsf,
              if_neg hlen]
            exact hrest _ _ _

theorem backfillLoop_result_mem {wallet : List Nat}
    {fetch : String → Option TxDetail}
    {orders : String → List Nat × List String} {target now : Int} :
    ∀ {pages : List (List SigInfo)} {acc res : List UsdcTransfer} {n : Nat}
      {sigs : List String} {t : UsdcTransfer},
      (backfillLoop wallet fetch orders target now pages acc n sigs).result
        = some res →
      t ∈ res →
      t ∈ acc ∨
        ∃ s l, process_transaction wallet fetch orders now s = some l ∧ t ∈ l := by
  intro pages
  induction pages with
  | nil =>
    intro acc res n sigs t hr ht
    injection hr with hr
    subst hr
    exact Or.inl ht
  | cons page rest ih =>
    intro acc res n sigs t hr ht
    cases page with
    | nil =>
      injection hr with hr
      subst hr
      exact Or.inl ht
    | cons e es =>
      by_cases hpf :
          (processEntries wallet fetch orders target now (e :: es) now).failed = true
      · simp [backfillLoop, hpf] at hr
      · rw [Bool.not_eq_true] at hpf
        have hacc : ∀ u ∈ acc ++
            (processEntries wallet fetch orders target now (e :: es) now).batch,
            u ∈ acc ∨ ∃ s l,
              process_transaction wallet fetch orders now s = some l ∧ u ∈ l := by
          intro u hu
          rcases List.mem_append.mp hu with hu | hu
          · exact Or.inl hu
          · exact Or.inr (processEntries_batch_mem hu)
        by_cases hold :
            (processEntries wallet fetch orders target now (e :: es) now).oldest
              < target
        · simp only [backfillLoop, hpf] at hr
          simp only [Bool.false_eq_true, if_false, if_pos hold] at hr
          injection hr with hr
          subst hr
          exact hacc t ht
        · cases hsf : signatureFromStr (es.getLastD e).signature with
          | none =>
            simp only [backfillLoop, hpf] at hr
            simp only [Bool.false_eq_true, if_false, if_neg hold, hsf] at hr
            cases hr
          | some s =>
            by_cases hlen : (e :: es).length < 1000
            · simp only [backfillLoop, hpf] at hr
              simp only [Bool.false_eq_true, if_false, if_neg hold, hsf,
                if_pos hlen] at hr
              injection hr with hr
              subst hr
              exact hacc t ht
            · simp only [backfillLoop, hpf] at hr
              simp only [Bool.false_eq_true, if_false, if_neg hold, hsf,
                if_neg hlen] at hr
              rcases ih hr ht with hm | hm
              · exact hacc t hm
              · exact Or.inr hm

theorem cleanEntry_sig {target now : Int} {e : SigInfo}
    (h : cleanEntry target now e = true) :
    (signatureFromStr e.signature).isSome = true := by
  unfold cleanEntry at h
  exact (Bool.and_eq_true_iff.mp h).2

theorem cleanEntry_time {target now : Int} {e : SigInfo} {bt : Int}
    (h : cleanEntry target now e = true) (hbt : e.blockTime = some bt) :
    target ≤ fromTimestamp now bt := by
  unfold cleanEntry at h
  rw [hbt] at h
  simp only [] at h
  have h1 := (Bool.and_eq_true_iff.mp h).1
  by_cases hle : target ≤ fromTimestamp now bt
  · exact hle
  · rw [if_neg hle] at h1; cases h1

theorem processEntries_clean {wallet : List Nat}
    {fetch : String → Option TxDetail}
    {orders : String → List Nat × List String} {target now : Int} :
    ∀ {es : List SigInfo},
      (∀ e ∈ es, cleanEntry target now e = true) →
      ∀ (o : Int), target ≤ o →
      (processEntries wallet fetch orders target now es o).failed = false ∧
      target ≤ (processEntries wallet fetch orders target now es o).oldest ∧
      (processEntries wallet fetch orders target now es o).fetchedSigs =
        (es.filter (fun x => x.err.isNone)).map (fun x => x.signature) := by
  intro es
  induction es with
  | nil => intro _ o ho; exact ⟨rfl, ho, rfl⟩
  | cons e rest ih =>
    intro h o ho
    have hce := h e (List.mem_cons_self _ _)
    have hsig := cleanEntry_sig hce
    have ihr := ih fun x hx => h x (List.mem_cons_of_mem _ hx)
    cases hsf : signatureFromStr e.signature with
    | none => rw [hsf] at hsig; cases hsig
    | some s =>
      cases hbt : e.blockTime with
      | some bt =>
        have hts := cleanEntry_time hce hbt
        have hlt : ¬ fromTimestamp now bt < target := not_lt.mpr hts
        have ho1 : target ≤ min o (fromTimestamp now bt) := le_min ho hts
        rcases ihr _ ho1 with ⟨h1, h2, h3⟩
        cases herr : e.err with
        | some v =>
          simp [processEntries, hbt, hlt, herr, List.filter_cons]
          exact ⟨h1, h2, h3⟩
        | none =>
          cases hp : process_transaction wallet fetch orders now e.signature with
          | some ts =>
            simp [processEntries, hbt, hlt, herr, hsf, hp, List.filter_cons]
            exact ⟨h1, h2, h3⟩
          | none =>
            simp [processEntries, hbt, hlt, herr, hsf, hp, List.filter_cons]
            exact ⟨h1, h2, h3⟩
      | none =>
        rcases ihr _ ho with ⟨h1, h2, h3⟩
        cases herr : e.err with
        | some v =>
          simp [processEntries, hbt, herr, List.filter_cons]
          exact ⟨h1, h2, h3⟩
        | none =>
          cases hp : process_transaction wallet fetch orders now e.signature with
          | some ts =>
            simp [processEntries, hbt, herr, hsf, hp, List.filter_cons]
            exact ⟨h1, h2, h3⟩
          | none =>
            simp [processEntries, hbt, herr, hsf, hp, List.filter_cons]
            exact ⟨h1, h2, h3⟩

theorem processEntries_break {wallet : List Nat}
    {fetch : String → Option TxDetail}
    {orders : String → List Nat × List String} {target now : Int}
    {bd : SigInfo} {bt : Int} (hbd : bd.blockTime = some bt)
    (hold : fromTimestamp now bt < target) :
    ∀ {gd : List SigInfo} (tl : List SigInfo),
      (∀ e ∈ gd, cleanEntry target now e = true) →
      ∀ (o : Int), target ≤ o →
      (processEntries wallet fetch orders target now (gd ++ bd :: tl) o).failed
        = false ∧
      (processEntries wallet fetch orders target now (gd ++ bd :: tl) o).oldest
        < target ∧
      (processEntries wallet fetch orders target now
          (gd ++ bd :: tl) o).fetchedSigs
        = (gd.filter (fun x => x.err.isNone)).map (fun x => x.signature) := by
  intro gd
  induction gd with
  | nil =>
    intro tl _ o ho
    have hmin : min o (fromTimestamp now bt) < target :=
      lt_of_le_of_lt (min_le_right _ _) hold
    simp [processEntries, hbd, hold, hmin]
  | cons e rest ih =>
    intro tl h o ho
    have hce := h e (List.mem_cons_self _ _)
    have hsig := cleanEntry_sig hce
    have ihr := ih tl fun x hx => h x (List.mem_cons_of_mem _ hx)
    cases hsf : signatureFromStr e.signature with
    | none => rw [hsf] at hsig; cases hsig
    | some s =>
      cases hbt : e.blockTime with
      | some bte =>
        have hts := cleanEntry_time hce hbt
        have hlt : ¬ fromTimestamp now bte < target := not_lt.mpr hts
        have ho1 : target ≤ min o (fromTimestamp now bte) := le_min ho hts
        rcases ihr _ ho1 with ⟨h1, h2, h3⟩
        cases herr : e.err with
        | some v =>
          simp [processEntries, hbt, hlt, herr, List.filter_cons]
          exact ⟨h1, h2, h3⟩
        | none =>
          cases hp : process_transaction wallet fetch orders now e.signature with
          | some ts =>
            simp [processEntries, hbt, hlt, herr, hsf, hp, List.filter_cons]
            exact ⟨h1, h2, h3⟩
          | none =>
            simp [processEntries, hbt, hlt, herr, hsf, hp, List.filter_cons]
            exact ⟨h1, h2, h3⟩
      | none =>
        rcases ihr _ ho with ⟨h1, h2, h3⟩
        cases herr : e.err with
        | some v =>
          simp [processEntries, hbt, herr, List.filter_cons]
          exact ⟨h1, h2, h3⟩
        | none =>
          cases hp : process_transaction wallet fetch orders now e.signature with
          | some ts =>
            simp [processEntries, hbt, herr, hsf, hp, List.filter_cons]
            exact ⟨h1, h2, h3⟩
          | none =>
            simp [processEntries, hbt, herr, hsf, hp, List.filter_cons]
            exact ⟨h1, h2, h3⟩

theorem backfillLoop_boundary {wallet : List Nat}
    {fetch : String → Option TxDetail}
    {orders : String → List Nat × List String} {target now : Int}
    {bd : SigInfo} {bt : Int} (hbd : bd.blockTime = some bt)
    (hold : fromTimestamp now bt < target) (htn : target ≤ now) :
    ∀ (prevPages : List (List SigInfo)) (gd tl : List SigInfo)
      (rest : List (List SigInfo)) (acc : List UsdcTransfer) (n : Nat)
      (sigs : List String),
      (∀ p ∈ prevPages, p.length = 1000 ∧
        ∀ e ∈ p, cleanEntry target now e = true) →
      (∀ e ∈ gd, cleanEntry target now e = true) →
      (backfillLoop wallet fetch orders target now
          (prevPages ++ (gd ++ bd :: tl) :: rest) acc n sigs).result.isSome
        = true ∧
      (backfillLoop wallet fetch orders target now
          (prevPages ++ (gd ++ bd :: tl) :: rest) acc n sigs).pagesFetched
        = n + prevPages.length + 1 ∧
      (backfillLoop wallet fetch orders target now
          (prevPages ++ (gd ++ bd :: tl) :: rest) acc n sigs).fetchedSigs
        = sigs ++ ((prevPages.flatten ++ gd).filter
            (fun x => x.err.isNone)).map (fun x => x.signature) := by
  intro prevPages
  induction prevPages with
  | nil =>
    intro gd tl rest acc n sigs _ hgd
    rcases @processEntries_break wallet fetch orders target now bd bt hbd hold
      gd tl hgd now htn with ⟨h1, h2, h3⟩
    cases gd with
    | nil =>
      simp only [List.nil_append] at h1 h2 h3 ⊢
      simp only [backfillLoop, h1]
      simp only [Bool.false_eq_true, if_false, if_pos h2]
      simp [h3]
    | cons g gs =>
      simp only [List.cons_append] at h1 h2 h3 ⊢
      simp only [backfillLoop, h1]
      simp only [Bool.false_eq_true, if_false, if_pos h2]
      simp [h3]
  | cons p ps ih =>
    intro gd tl rest acc n sigs hprev hgd
    rcases hprev p (List.mem_cons_self _ _) with ⟨hlen, hcl⟩
    cases p with
    | nil => cases hlen
    | cons e es =>
      rcases @processEntries_clean wallet fetch orders target now (e :: es)
        hcl now htn with ⟨h1, h2, h3⟩
      have hnlt : ¬ (processEntries wallet fetch orders target now
          (e :: es) now).oldest < target := not_lt.mpr h2
      have hlast : (signatureFromStr (es.getLastD e).signature).isSome = true :=
        cleanEntry_sig (hcl _ (getLastD_mem es e))
      cases hsf : signatureFromStr (es.getLastD e).signature with
      | none => rw [hsf] at hlast; cases hlast
      | some s =>
        have hnlen : ¬ (e :: es).length < 1000 := by rw [hlen]; omega
        rcases ih gd tl rest
            (acc ++ (processEntries wallet fetch orders target now
              (e :: es) now).batch) (n + 1)
            (sigs ++ (processEntries wallet fetch orders target now
              (e :: es) now).fetchedSigs)
            (fun q hq => hprev q (List.mem_cons_of_mem _ hq)) hgd
          with ⟨g1, g2, g3⟩
        simp only [List.cons_append, backfillLoop, h1]
        simp only [Bool.false_eq_true, if_false, if_neg hnlt, hsf,
          if_neg hnlen, List.append_eq]
        refine ⟨g1, ?_, ?_⟩
        · rw [g2]; simp [List.length_cons]; omega
        · rw [g3, h3]
          simp only [List.flatten_cons, List.filter_append, List.map_append,
            List.append_assoc]

/-- Mapping an option preserves definedness. -/
theorem isSome_map {α β : Type} (f : α → β) (o : Option α) :
    (o.map f).isSome = o.isSome := by
  cases o <;> rfl

/-! ## Claim theorems -/

/-- C1 (amended): per-entry failures of the transaction-detail fetch and
failed-transaction markers are absorbed at the item level — when every
signature string in the paginated source is well-formed, a backfill run
started with a valid tracked-account address always returns a result,
whatever the detail oracle does.  (The original claim fails because a
malformed signature string in a non-failed entry aborts the whole run, see
the counterexample.) -/
theorem c1_absorbs_item_failures (w : String) (wk : List Nat)
    (fetch : String → Option TxDetail)
    (orders : String → List Nat × List String) (now : Int) (hoursBack : Nat)
    (pages : List (List SigInfo)) (_hnew : SolanaIndexer.new w = some wk)
    (hsig : ∀ p ∈ pages, ∀ e ∈ p, (signatureFromStr e.signature).isSome = true) :
    (backfill_usdc_transfers wk fetch orders now hoursBack pages).result.isSome
      = true := by
  unfold backfill_usdc_transfers
  simp only [isSome_map]
  exact backfillLoop_isSome hsig [] 0 []

/-- C1 witness: a run over one well-formed page whose only detail fetch
fails still returns a result. -/
theorem c1_witness :
    (backfill_usdc_transfers fxWKey fxFetchNone fxOrders 1000 1
        fxPages8).result.isSome = true :=
  c1_absorbs_item_failures fxW fxWKey fxFetchNone fxOrders 1000 1 fxPages8
    (by decide) (by decide)

/-- C1 counterexample: the tracked-account address is valid (startup
succeeds), yet the backfill as a whole fails, because the single page
contains a non-failed entry whose signature string `"0"` does not parse as
a transaction identifier — `Signature::from_str(..)?` propagates the error
out of the whole run instead of skipping the entry. -/
theorem c1_counterexample_sig_parse_aborts :
    SolanaIndexer.new fxW = some fxWKey ∧
    (backfill_usdc_transfers fxWKey fxFetchNone fxOrders 1000 1
        [[⟨"0", some 500, none⟩]]).result = none := by
  decide

/-- C2 (amended): for every transfer event returned by the backfill, at
least one of the two conditions (the from owner parses to the tracked
account, the to owner parses to the tracked account) holds; candidates for
which neither holds are discarded.  (The original "exactly one … never
both" fails on a self transfer, see the counterexample.) -/
theorem c2_event_touches_tracked_account (wallet : List Nat)
    (fetch : String → Option TxDetail)
    (orders : String → List Nat × List String) (now : Int) (hoursBack : Nat)
    (pages : List (List SigInfo)) (l : List UsdcTransfer) (t : UsdcTransfer)
    (hr : (backfill_usdc_transfers wallet fetch orders now hoursBack
        pages).result = some l) (ht : t ∈ l) :
    pubkeyFromStr t.from_owner = some wallet ∨
      pubkeyFromStr t.to_owner = some wallet := by
  unfold backfill_usdc_transfers at hr
  simp only [] at hr
  cases hres : (backfillLoop wallet fetch orders
      (now - toI64 hoursBack * 3600) now pages [] 0 []).result with
  | none => rw [hres] at hr; cases hr
  | some l0 =>
    rw [hres] at hr
    injection hr with hr
    subst hr
    have ht0 : t ∈ l0 := (List.mem_filter.mp ht).1
    rcases backfillLoop_result_mem hres ht0 with hm | ⟨s, l1, hp, hm⟩
    · cases hm
    · exact process_transaction_mem hp hm

/-- C2 witness: the self-transfer run returns an event whose from owner
parses to the tracked wallet. -/
theorem c2_witness :
    pubkeyFromStr fxEvt2.from_owner = some fxWKey ∨
      pubkeyFromStr fxEvt2.to_owner = some fxWKey :=
  c2_event_touches_tracked_account fxWKey fxFetch2 fxOrders 1000 1 fxPages8
    [fxEvt2] fxEvt2 (by decide) (by decide)

/-- C2 counterexample: a transfer between two token accounts owned by the
same tracked wallet is returned (as `Sent`), and BOTH conditions "from
owner equals the tracked account" and "to owner equals the tracked account"
hold, so "exactly one … never both" is false. -/
theorem c2_counterexample_self_transfer :
    (backfill_usdc_transfers fxWKey fxFetch2 fxOrders 1000 1 fxPages8).result
      = some [fxEvt2] ∧
    pubkeyFromStr fxEvt2.from_owner = some fxWKey ∧
    pubkeyFromStr fxEvt2.to_owner = some fxWKey ∧
    ¬((pubkeyFromStr fxEvt2.from_owner = some fxWKey ∧
        ¬pubkeyFromStr fxEvt2.to_owner = some fxWKey) ∨
      (¬pubkeyFromStr fxEvt2.from_owner = some fxWKey ∧
        pubkeyFromStr fxEvt2.to_owner = some fxWKey)) := by
  decide

/-- C3 (amended): the reconciler is a pure function of its inputs TOGETHER
WITH the iteration orders of its internal hash containers: two invocations
with the same snapshot lists and the same container iteration orders yield
identical output.  (Determinism from the snapshot inputs alone fails, see
the counterexample: the Rust `HashSet`/`HashMap` iteration orders vary
between calls and change the pairing.) -/
theorem c3_deterministic_given_orders (meta1 meta2 : Meta)
    (ord1 ord2 : List Nat) (mo1 mo2 : List String) (h1 : meta1 = meta2)
    (h2 : ord1 = ord2) (h3 : mo1 = mo2) :
    parse_token_transfers meta1 ord1 mo1 =
      parse_token_transfers meta2 ord2 mo2 := by
  rw [h1, h2, h3]

/-- C3 witness: two invocations on the ambiguous fixture with equal orders
agree. -/
theorem c3_witness :
    parse_token_transfers ⟨some fxPre3, some fxPost3⟩ [0, 1, 2, 3]
        [USDC_MAINNET] =
      parse_token_transfers ⟨some fxPre3, some fxPost3⟩ [0, 1, 2, 3]
        [USDC_MAINNET] :=
  c3_deterministic_given_orders _ _ _ _ _ _ rfl rfl rfl

/-- C3 counterexample: two valid iteration orders of the same account-index
set (both enumerate exactly the indices of the snapshots, duplicate-free)
produce different outputs — different pairings of owners — on the same
immutable input, so the output depends on more than the inputs and the
tracked mints. -/
theorem c3_counterexample_order_dependence :
    validOrd fxPre3 fxPost3 [0, 1, 2, 3] ∧
    validOrd fxPre3 fxPost3 [1, 0, 2, 3] ∧
    validMintOrd fxPre3 fxPost3 [0, 1, 2, 3] [USDC_MAINNET] ∧
    validMintOrd fxPre3 fxPost3 [1, 0, 2, 3] [USDC_MAINNET] ∧
    parse_token_transfers ⟨some fxPre3, some fxPost3⟩ [0, 1, 2, 3]
        [USDC_MAINNET] ≠
      parse_token_transfers ⟨some fxPre3, some fxPost3⟩ [1, 0, 2, 3]
        [USDC_MAINNET] := by
  decide

/-- C6 (amended): the mint filter is applied per account index, before any
pairing: every event the reconciler produces draws its mint, amount and
owners exclusively from account indices whose RESOLVED mint (pre-snapshot
entry preferred, else post) is a tracked mint.  (The per-entry reading of
the claim fails when one index carries different mints in pre and post,
see the counterexample.) -/
theorem c6_tracked_index_provenance (meta : Meta)
    (pre post : List TokenBalance) (ord : List Nat) (mintOrd : List String)
    (l : List TokenTransferInfo) (t : TokenTransferInfo)
    (hpre : meta.preTokenBalances = some pre)
    (hpost : meta.postTokenBalances = some post)
    (hl : parse_token_transfers meta ord mintOrd = some l) (ht : t ∈ l) :
    is_usdc_mint t.mint = true ∧
      (∃ i, i ∈ ord ∧ resolveMint pre post i = some t.mint ∧
        computeChange pre post i < 0 ∧
        toU64 (wrap64 (-(computeChange pre post i))) = t.amount ∧
        resolveOwner pre post i = t.from_owner) ∧
      (∃ j, j ∈ ord ∧ resolveMint pre post j = some t.mint ∧
        0 < computeChange pre post j ∧
        toU64 (computeChange pre post j) = t.amount ∧
        resolveOwner pre post j = t.to_owner) :=
  parse_mem hpre hpost hl ht

/-- C6 witness: the provenance theorem applied to the simple transfer
fixture shows its event carries a tracked mint. -/
theorem c6_witness :
    is_usdc_mint (TokenTransferInfo.mint ⟨USDC_MAINNET, 100, "A", "B"⟩)
      = true :=
  (c6_tracked_index_provenance ⟨some fxPre4, some fxPost4⟩ fxPre4 fxPost4
    [0, 1] [USDC_MAINNET] [⟨USDC_MAINNET, 100, "A", "B"⟩]
    ⟨USDC_MAINNET, 100, "A", "B"⟩ rfl rfl (by decide) (by decide)).1

/-- C6 counterexample: the post entry at index 0 has the untracked mint
`"OTHERMINT"`, owner `"X"` and balance `0`; because the index RESOLVES to
the tracked mint through the pre entry, the produced event references that
untracked entry: its owner becomes the event's from owner and its balance
enters the delta (100 = 100 − 0).  The orders are valid enumerations, so
this is a behaviour of the Rust code on this input. -/
theorem c6_counterexample_mixed_mint_index :
    validOrd fxPre6 fxPost6 [0, 1] ∧
    validMintOrd fxPre6 fxPost6 [0, 1] [USDC_MAINNET] ∧
    is_usdc_mint "OTHERMINT" = false ∧
    fxPost6 = [⟨0, "OTHERMINT", some "X", "0"⟩,
      ⟨1, USDC_MAINNET, some "B", "100"⟩] ∧
    parse_token_transfers ⟨some fxPre6, some fxPost6⟩ [0, 1] [USDC_MAINNET]
      = some [⟨USDC_MAINNET, 100, "X", "B"⟩] := by
  decide

/-- C8: every transfer event in the list returned by the backfill has a
timestamp at least `targetInstant = now − hoursBack·3600` — the final
filter removes events admitted by the per-page loop whose timestamps fall
before the window. -/
theorem c8_result_within_window (wallet : List Nat)
    (fetch : String → Option TxDetail)
    (orders : String → List Nat × List String) (now : Int) (hoursBack : Nat)
    (pages : List (List SigInfo)) (l : List UsdcTransfer) (t : UsdcTransfer)
    (hr : (backfill_usdc_transfers wallet fetch orders now hoursBack
        pages).result = some l) (ht : t ∈ l) :
    now - toI64 hoursBack * 3600 ≤ t.timestamp := by
  unfold backfill_usdc_transfers at hr
  simp only [] at hr
  cases hres : (backfillLoop wallet fetch orders
      (now - toI64 hoursBack * 3600) now pages [] 0 []).result with
  | none => rw [hres] at hr; cases hr
  | some l0 =>
    rw [hres] at hr
    injection hr with hr
    subst hr
    exact of_decide_eq_true (List.mem_filter.mp ht).2

/-- C8 witness: the self-transfer run returns one event, and the theorem
instantiates to its timestamp being within the window. -/
theorem c8_witness :
    (backfill_usdc_transfers fxWKey fxFetch2 fxOrders 1000 1 fxPages8).result
      = some [fxEvt2] ∧
    1000 - toI64 1 * 3600 ≤ fxEvt2.timestamp :=
  ⟨by decide, c8_result_within_window fxWKey fxFetch2 fxOrders 1000 1 fxPages8
    [fxEvt2] fxEvt2 (by decide) (by decide)⟩

/-- C9: if any reconciled candidate of one transaction carries a from or to
owner string that does not parse as an account identifier, the whole
transaction contributes zero events — `process_transaction` returns an
error, discarding every candidate including those with valid owners — and
the backfill's entry loop skips the entry (its batch contribution is empty)
while processing of the remaining entries continues. -/
theorem c9_invalid_owner_discards_transaction (wallet : List Nat)
    (fetch : String → Option TxDetail)
    (orders : String → List Nat × List String) (now : Int) (sig : String)
    (tx : TxDetail) (meta : Meta) (bt : Int) (l : List TokenTransferInfo)
    (c : TokenTransferInfo) (hf : fetch sig = some tx)
    (hm : tx.meta = some meta) (hb : tx.blockTime = some bt)
    (hp : parse_token_transfers meta (orders sig).1 (orders sig).2 = some l)
    (hc : c ∈ l)
    (hbad : pubkeyFromStr c.from_owner = none ∨
      pubkeyFromStr c.to_owner = none)
    (hsig : (signatureFromStr sig).isSome = true) :
    process_transaction wallet fetch orders now sig = none ∧
    ∀ (target o : Int) (rest : List SigInfo),
      (processEntries wallet fetch orders target now
          (⟨sig, none, none⟩ :: rest) o).batch =
        (processEntries wallet fetch orders target now rest o).batch := by
  have hnone : process_transaction wallet fetch orders now sig = none := by
    unfold process_transaction
    rw [hf]
    simp only []
    rw [hm]
    simp only []
    rw [hb]
    simp only []
    rw [hp]
    exact classify_none_of_bad hc (parse_mem_usdc hp hc) hbad
  refine ⟨hnone, ?_⟩
  intro target o rest
  cases hsf : signatureFromStr sig with
  | none => rw [hsf] at hsig; cases hsig
  | some s => simp [processEntries, hsf, hnone]

/-- C9 witness: the transaction whose reconciled candidate carries the
empty owner string (neither snapshot records an owner) yields an error,
contributing zero events. -/
theorem c9_witness :
    process_transaction fxWKey fxFetch9 fxOrders 1000 fxSig = none :=
  (c9_invalid_owner_discards_transaction fxWKey fxFetch9 fxOrders 1000 fxSig
    ⟨some 500, some fxMeta9⟩ fxMeta9 500 [⟨USDC_MAINNET, 100, "", fxW⟩]
    ⟨USDC_MAINNET, 100, "", fxW⟩ rfl rfl rfl (by decide) (by decide)
    (Or.inl (by decide)) (by decide)).1

/-- C10: a raw-amount string that does not parse as an unsigned 64-bit
integer is treated as exactly 0 rather than failing: a malformed pre entry
makes the signed delta equal to the post-side balance (as i64), and a
malformed post entry makes it the negation of the pre-side balance, so such
entries participate in pairing with nonzero deltas. -/
theorem c10_unparseable_amount_zero :
    (∀ (pre post : List TokenBalance) (i : Nat) (b : TokenBalance),
      mapLookup pre i = some b → parseU64 b.amount = none →
      computeChange pre post i = wrap64 (toI64 (amountAt post i))) ∧
    (∀ (pre post : List TokenBalance) (i : Nat) (b : TokenBalance),
      mapLookup post i = some b → parseU64 b.amount = none →
      computeChange pre post i = wrap64 (-(toI64 (amountAt pre i)))) := by
  constructor
  · intro pre post i b hb hbad
    unfold computeChange
    have hz : amountAt pre i = 0 := by
      unfold amountAt
      rw [hb]
      simp only []
      unfold parse_token_amount
      rw [hbad]
      rfl
    rw [hz]
    norm_num [toI64]
  · intro pre post i b hb hbad
    unfold computeChange
    have hz : amountAt post i = 0 := by
      unfold amountAt
      rw [hb]
      simp only []
      unfold parse_token_amount
      rw [hbad]
      rfl
    rw [hz]
    norm_num [toI64]

/-- C10 witness: pre amount `"abc"` is treated as 0, the index contributes
delta +100 (the post balance), and the transaction pairs into an event of
amount 100. -/
theorem c10_witness :
    computeChange fxPre10 fxPost10 0 = wrap64 (toI64 (amountAt fxPost10 0)) ∧
    computeChange fxPre10 fxPost10 0 = 100 ∧
    parse_token_transfers ⟨some fxPre10, some fxPost10⟩ [0, 1] [USDC_MAINNET]
      = some [⟨USDC_MAINNET, 100, "B", "A"⟩] :=
  ⟨c10_unparseable_amount_zero.1 fxPre10 fxPost10 0
      ⟨0, USDC_MAINNET, some "A", "abc"⟩ (by decide) (by decide),
    by decide, by decide⟩

/-- C5: when no decrease magnitude equals any increase magnitude among
indices resolving to the same tracked mint, the reconciler produces no
transfer events and signals the empty outcome as absence (`None` — the
Rust `Option`), not an error; every unmatched decrease is dropped
silently. -/
theorem c5_no_match_empty (meta : Meta) (pre post : List TokenBalance)
    (ord : List Nat) (mintOrd : List String)
    (hpre : meta.preTokenBalances = some pre)
    (hpost : meta.postTokenBalances = some post)
    (hnm : ∀ i ∈ ord, ∀ j ∈ ord, ∀ m ∈ (resolveMint pre post i).toList,
      resolveMint pre post j = some m → is_usdc_mint m = true →
      computeChange pre post i < 0 → 0 < computeChange pre post j →
      toU64 (wrap64 (-(computeChange pre post i))) ≠
        toU64 (computeChange pre post j)) :
    parse_token_transfers meta ord mintOrd = none := by
  unfold parse_token_transfers
  rw [hpre, hpost]
  simp only []
  have hnil : (mintOrd.flatMap fun m =>
      if is_usdc_mint m then
        processGroup pre post m
          (ord.filter (fun i => resolveMint pre post i = some m))
      else []) = [] := by
    refine flatMap_eq_nil_of fun m hm => ?_
    by_cases hu : is_usdc_mint m = true
    · rw [if_pos hu]
      unfold processGroup
      refine matchLoop_eq_nil ?_
      intro d hd x hx
      have hd1 := List.mem_reverse.mp hd
      rcases List.mem_filter.mp hd1 with ⟨hdb, hdneg⟩
      rcases List.mem_filter.mp hx with ⟨hxb, hxpos⟩
      rcases balanceChanges_mem hdb with ⟨hdg, hdc, _, _⟩
      rcases balanceChanges_mem hxb with ⟨hxg, hxc, _, _⟩
      rcases List.mem_filter.mp hdg with ⟨hdo, hdm⟩
      rcases List.mem_filter.mp hxg with ⟨hxo, hxm⟩
      have hdm1 := of_decide_eq_true hdm
      have hxm1 := of_decide_eq_true hxm
      have hdneg1 : d.2.1 < 0 := by simpa using hdneg
      have hxpos1 : 0 < x.2.1 := by simpa using hxpos
      rw [hdc] at hdneg1
      rw [hxc] at hxpos1
      rw [hdc, hxc]
      exact hnm d.1 hdo x.1 hxo m (by simp [hdm1]) hxm1 hu hdneg1 hxpos1
    · rw [if_neg hu]
  rw [hnil]
  simp

/-- C5 witness: a decrease of 100 and an increase of 50 produce the empty
outcome `none`. -/
theorem c5_witness :
    parse_token_transfers ⟨some fxPre5, some fxPost5⟩ [0, 1] [USDC_MAINNET]
      = none :=
  c5_no_match_empty ⟨some fxPre5, some fxPost5⟩ fxPre5 fxPost5 [0, 1]
    [USDC_MAINNET] rfl rfl (by decide)

/-- The `balance_changes` vector of a group, filtered by a sign predicate,
collapses to one element when exactly one index of the group satisfies it
with a nonzero delta. -/
theorem balanceChanges_filter_singleton (p : Nat × Int × String → Bool)
    {pre post : List TokenBalance} {g : List Nat} {a : Nat}
    (hnd : g.Nodup) (ha : a ∈ g) (hca : computeChange pre post a ≠ 0)
    (hpa : p (a, computeChange pre post a, resolveOwner pre post a) = true)
    (ho : ∀ i ∈ g, i ≠ a → computeChange pre post i = 0 ∨
      p (i, computeChange pre post i, resolveOwner pre post i) = false) :
    (balanceChanges pre post g).filter p =
      [(a, computeChange pre post a, resolveOwner pre post a)] := by
  unfold balanceChanges
  rw [filterMap_filter]
  refine filterMap_eq_singleton hnd ha ?_ ?_
  · simp only [if_neg hca, hpa, if_pos]
  · intro x hx hxa
    rcases ho x hx hxa with h0 | hpf
    · simp [h0]
    · by_cases hcx : computeChange pre post x = 0
      · simp [hcx]
      · simp [hcx, hpf]

/-- C4: for a snapshot pair containing, for the tracked mint, exactly one
index whose balance decreases and exactly one whose balance increases by
the same magnitude (and no other tracked mint present), the reconciler
returns exactly one transfer event: amount = that magnitude, from = the
decreasing index's resolved owner, to = the increasing index's resolved
owner — for every valid pair of hash-container iteration orders. -/
theorem c4_single_match_pair (meta : Meta) (pre post : List TokenBalance)
    (ord : List Nat) (mintOrd : List String) (m0 : String) (di ii : Nat)
    (mag : Nat) (fo t_o : String)
    (hpre : meta.preTokenBalances = some pre)
    (hpost : meta.postTokenBalances = some post)
    (hm0 : is_usdc_mint m0 = true) (hvo : validOrd pre post ord)
    (hvm : validMintOrd pre post ord mintOrd)
    (hdi : resolveMint pre post di = some m0)
    (hii : resolveMint pre post ii = some m0)
    (hdch : computeChange pre post di = -(mag : Int))
    (hich : computeChange pre post ii = (mag : Int))
    (hpos : 0 < mag) (hmlt : mag < 2 ^ 63)
    (hdo : resolveOwner pre post di = fo)
    (hio : resolveOwner pre post ii = t_o)
    (huniq : ∀ i ∈ ord, resolveMint pre post i = some m0 →
      computeChange pre post i ≠ 0 → i = di ∨ i = ii)
    (honly : ∀ i ∈ ord, ∀ m ∈ (resolveMint pre post i).toList,
      is_usdc_mint m = true → m = m0) :
    parse_token_transfers meta ord mintOrd = some [⟨m0, mag, fo, t_o⟩] := by
  have hdiord : di ∈ ord := resolveMint_mem_ord hvo hdi
  have hiiord : ii ∈ ord := resolveMint_mem_ord hvo hii
  have hmagz : (mag : Int) ≠ 0 := by exact_mod_cast Nat.pos_iff_ne_zero.mp hpos
  have hne : di ≠ ii := by
    intro h
    rw [h, hich] at hdch
    omega
  have hm0mem : m0 ∈ mintOrd := hvm.2.2 di hdiord m0 (by simp [hdi])
  have hothers : ∀ m ∈ mintOrd, m ≠ m0 →
      (if is_usdc_mint m then
        processGroup pre post m
          (ord.filter (fun i => resolveMint pre post i = some m))
      else []) = [] := by
    intro m hm hneq
    by_cases hu : is_usdc_mint m = true
    · exfalso
      rcases hvm.2.1 m hm with ⟨i, hio2, hrm⟩
      exact hneq (honly i hio2 m (by simp [hrm]) hu)
    · rw [if_neg (by simpa using hu)]
  have hgnd : (ord.filter
      (fun i => resolveMint pre post i = some m0)).Nodup :=
    hvo.1.filter _
  have hgdi : di ∈ ord.filter (fun i => resolveMint pre post i = some m0) :=
    List.mem_filter.mpr ⟨hdiord, by simp [hdi]⟩
  have hgii : ii ∈ ord.filter (fun i => resolveMint pre post i = some m0) :=
    List.mem_filter.mpr ⟨hiiord, by simp [hii]⟩
  have hgmem : ∀ i ∈ ord.filter
      (fun i => resolveMint pre post i = some m0),
      i ∈ ord ∧ resolveMint pre post i = some m0 := fun i hi =>
    ⟨(List.mem_filter.mp hi).1, of_decide_eq_true (List.mem_filter.mp hi).2⟩
  have hdecr : (balanceChanges pre post (ord.filter
      (fun i => resolveMint pre post i = some m0))).filter
        (fun b => b.2.1 < 0) =
      [(di, computeChange pre post di, resolveOwner pre post di)] := by
    refine balanceChanges_filter_singleton _ hgnd hgdi
      (by rw [hdch]; exact neg_ne_zero.mpr hmagz) (by simp [hdch]; omega) ?_
    intro i hi hia
    rcases hgmem i hi with ⟨hio2, hrm⟩
    by_cases hc0 : computeChange pre post i = 0
    · exact Or.inl hc0
    · rcases huniq i hio2 hrm hc0 with rfl | rfl
      · exact absurd rfl hia
      · refine Or.inr ?_
        simp [hich]
  have hincr : (balanceChanges pre post (ord.filter
      (fun i => resolveMint pre post i = some m0))).filter
        (fun b => 0 < b.2.1) =
      [(ii, computeChange pre post ii, resolveOwner pre post ii)] := by
    refine balanceChanges_filter_singleton _ hgnd hgii
      (by rw [hich]; exact hmagz) (by simp [hich]; omega) ?_
    intro i hi hia
    rcases hgmem i hi with ⟨hio2, hrm⟩
    by_cases hc0 : computeChange pre post i = 0
    · exact Or.inl hc0
    · rcases huniq i hio2 hrm hc0 with rfl | rfl
      · refine Or.inr ?_
        simp [hdch]
      · exact absurd rfl hia
  have hw1 : wrap64 ((mag : Nat) : Int) = ((mag : Nat) : Int) := by
    refine wrap64_eq_self ?_ ?_
    · have : (0 : Int) ≤ (mag : Int) := Int.natCast_nonneg mag
      omega
    · exact_mod_cast hmlt
  have ht64 : toU64 ((mag : Nat) : Int) = mag :=
    toU64_natCast (lt_trans hmlt (by norm_num))
  have hpg : processGroup pre post m0 (ord.filter
      (fun i => resolveMint pre post i = some m0)) =
      [⟨m0, mag, fo, t_o⟩] := by
    unfold processGroup
    simp only []
    rw [hdecr, hincr, hdch, hich, hdo, hio]
    simp [matchLoop, findRemove, neg_neg, hw1, ht64]
  unfold parse_token_transfers
  rw [hpre, hpost]
  simp only []
  rw [flatMap_eq_of_unique hvm.1 hm0mem hothers]
  rw [if_pos hm0, hpg]
  rfl

/-- C4 witness: the simple one-decrease/one-increase fixture yields exactly
the single expected event. -/
theorem c4_witness :
    parse_token_transfers ⟨some fxPre4, some fxPost4⟩ [0, 1] [USDC_MAINNET]
      = some [⟨USDC_MAINNET, 100, "A", "B"⟩] :=
  c4_single_match_pair ⟨some fxPre4, some fxPost4⟩ fxPre4 fxPost4 [0, 1]
    [USDC_MAINNET] USDC_MAINNET 0 1 100 "A" "B" rfl rfl (by decide)
    (by decide) (by decide) (by decide) (by decide) (by decide) (by decide)
    (by decide) (by decide) (by decide) (by decide) (by decide) (by decide)


/-- C7: the backfill requests pages strictly in order and stops exactly at
the first page containing a signature whose known block time is strictly
older than the target instant: it fetches exactly the pages up to and
including that boundary page (`prevPages.length + 1` requests, never a page
beyond), within the boundary page it stops at the first such entry (detail
is fetched exactly for the non-failed entries of the earlier pages and of
the boundary page's prefix before the old entry), and the run returns a
result. -/
theorem c7_pagination_stops_at_boundary (wallet : List Nat)
    (fetch : String → Option TxDetail)
    (orders : String → List Nat × List String) (now : Int) (hoursBack : Nat)
    (prevPages : List (List SigInfo)) (gd tl : List SigInfo) (bd : SigInfo)
    (bt : Int) (rest : List (List SigInfo)) (target : Int)
    (htar : target = now - toI64 hoursBack * 3600) (htn : target ≤ now)
    (hprev : ∀ p ∈ prevPages, p.length = 1000 ∧
      ∀ e ∈ p, cleanEntry target now e = true)
    (hgd : ∀ e ∈ gd, cleanEntry target now e = true)
    (hbd : bd.blockTime = some bt) (hold : fromTimestamp now bt < target) :
    (backfill_usdc_transfers wallet fetch orders now hoursBack
        (prevPages ++ (gd ++ bd :: tl) :: rest)).pagesFetched
      = prevPages.length + 1 ∧
    (backfill_usdc_transfers wallet fetch orders now hoursBack
        (prevPages ++ (gd ++ bd :: tl) :: rest)).result.isSome = true ∧
    (backfill_usdc_transfers wallet fetch orders now hoursBack
        (prevPages ++ (gd ++ bd :: tl) :: rest)).fetchedSigs
      = ((prevPages.flatten ++ gd).filter (fun x => x.err.isNone)).map
          (fun x => x.signature) := by
  subst htar
  rcases backfillLoop_boundary hbd hold htn prevPages gd tl rest [] 0 []
    hprev hgd with ⟨g1, g2, g3⟩
  refine ⟨?_, ?_, ?_⟩
  · show (backfillLoop wallet fetch orders (now - toI64 hoursBack * 3600) now
      (prevPages ++ (gd ++ bd :: tl) :: rest) [] 0 []).pagesFetched
        = prevPages.length + 1
    rw [g2]
    omega
  · show ((backfillLoop wallet fetch orders (now - toI64 hoursBack * 3600) now
      (prevPages ++ (gd ++ bd :: tl) :: rest) [] 0 []).result.map
        (fun l => l.filter (fun t =>
          now - toI64 hoursBack * 3600 ≤ t.timestamp))).isSome = true
    rw [isSome_map]
    exact g1
  · show (backfillLoop wallet fetch orders (now - toI64 hoursBack * 3600) now
      (prevPages ++ (gd ++ bd :: tl) :: rest) [] 0 []).fetchedSigs
        = ((prevPages.flatten ++ gd).filter (fun x => x.err.isNone)).map
            (fun x => x.signature)
    rw [g3]
    rfl

/-- C7 witness: the very first page holds the boundary entry; the run
fetches exactly one page (the prepared second page is never requested) and
processes only the good entry before the old one. -/
theorem c7_witness :
    (backfill_usdc_transfers fxWKey fxFetchNone fxOrders 1000 1
        ([] ++ ([fxGoodE] ++ fxOldE :: [fxTailE]) :: [[fxGoodE]])).pagesFetched
      = 1 ∧
    (backfill_usdc_transfers fxWKey fxFetchNone fxOrders 1000 1
        ([] ++ ([fxGoodE] ++ fxOldE :: [fxTailE]) :: [[fxGoodE]])).result.isSome
      = true ∧
    (backfill_usdc_transfers fxWKey fxFetchNone fxOrders 1000 1
        ([] ++ ([fxGoodE] ++ fxOldE :: [fxTailE]) :: [[fxGoodE]])).fetchedSigs
      = ((List.flatten ([] : List (List SigInfo)) ++ [fxGoodE]).filter (fun x => x.err.isNone)).map
          (fun x => x.signature) :=
  c7_pagination_stops_at_boundary fxWKey fxFetchNone fxOrders 1000 1 []
    [fxGoodE] [fxTailE] fxOldE (-10000) [[fxGoodE]] (1000 - toI64 1 * 3600)
    rfl (by decide) (by decide) (by decide) rfl (by decide)

end Dc
